import Mathlib

/-!
Shallow embedding of the pd1 per-shard storage-engine core
(tsdb/engine/pd1/pd1.go and the range write lock file) together with
theorems settling the specification claims about it.

Modelling conventions:
* machine integers (int64 timestamps, uint32 sizes/positions, uint64 ids)
  are `Int` and `Nat`; the code performs no overflowing arithmetic on them
  in the modelled paths;
* the opaque BlockCodec (out of scope per the spec) is the identity on the
  model: a block is represented by its decoded list of `Value`s, so
  `Encode`/`DecodeSameTypeBlock` disappear;
* Go maps keyed by id are association lists with distinct keys;
* Go loops are recursive functions; the two binary-search loops are written
  with an explicit iteration budget (`fuel`) equal to the initial window
  width, which bounds the loop because every iteration strictly shrinks
  the window, so the budget is never exhausted while the window is open.
-/

/-- Engine constant `DefaultMaxPointsPerBlock` (pd1.go:60). -/
def DefaultMaxPointsPerBlock : Nat := 1000

/-- Engine constant `MaxDataFileSize` (pd1.go:53), 1 GiB. -/
def MaxDataFileSize : Nat := 1024 * 1024 * 1024

/-- Data-file layout constant `fileHeaderSize` (pd1.go:1363): the 4-byte magic. -/
def fileHeaderSize : Nat := 4

/-- Largest int64, the `math.MaxInt64` initializer used by `rewriteFile`. -/
def maxInt64 : Int := 9223372036854775807

/-- Smallest int64, the `math.MinInt64` initializer used by `rewriteFile`. -/
def minInt64 : Int := -9223372036854775808

/-- A point value: `(timestamp int64 nanoseconds, payload)`.  The payload type
is opaque to the storage core; the model fixes it to `Int`. -/
structure Value where
  t : Int
  v : Int
  deriving DecidableEq, Repr

/-- Values is an ordered sequence of `Value`, ascending by time (spec section 3). -/
abbrev Values := List Value

/-- Modelled from the spec: `Values.MinTime` (the Values methods live in the
codec file of this repository, which is not under src/).  Values are ascending
by time, so the minimum is the first timestamp; 0 on the empty sequence. -/
def Values.MinTime (vs : Values) : Int :=
  ((vs.head?).map Value.t).getD 0

/-- Modelled from the spec: `Values.MaxTime` (codec file not under src/).
Values are ascending by time, so the maximum is the last timestamp. -/
def Values.MaxTime (vs : Values) : Int :=
  ((vs.getLast?).map Value.t).getD 0

/-- Insert a value into a time-ascending list, replacing an existing entry
with the same timestamp (helper for `Values.Deduplicate`). -/
def insertReplace : Values → Value → Values
  | [], w => [w]
  | u :: rest, w =>
    if w.t < u.t then w :: u :: rest
    else if w.t = u.t then w :: rest
    else u :: insertReplace rest w

/-- Modelled from the spec: `Values.Deduplicate` (codec file not under src/):
"returns the same sequence with duplicate timestamps collapsed (last occurrence
wins) in ascending time order".  Folding from the left makes a later occurrence
of a timestamp replace an earlier one. -/
def Values.Deduplicate (vs : Values) : Values :=
  vs.foldl insertReplace []

/-- One step budgeted loop body of Go's `sort.Search` over `[i, j)`:
`h := (i+j)/2; if !f(h) then i = h+1 else j = h`, returning `i` when the
window closes.  `fuel` starts at the window width and the window shrinks
every iteration, so fuel 0 implies `i = j` and returning `i` matches Go. -/
def sortSearchAux (f : Nat → Bool) : Nat → Nat → Nat → Nat
  | 0, i, _ => i
  | fuel + 1, i, j =>
    if i < j then
      let m := (i + j) / 2
      if f m then sortSearchAux f fuel i m else sortSearchAux f fuel (m + 1) j
    else i

/-- Go's `sort.Search(n, f)`: smallest index in `[0, n)` at which `f` flips to
true, assuming `f` monotone; `n` if none. -/
def sortSearch (n : Nat) (f : Nat → Bool) : Nat :=
  sortSearchAux f n 0 n

/-- Shallow embedding of `Engine.DecodeAndCombine` (pd1.go:1324-1351).
A raw block is modelled by its decoded `Values`, so `DecodeSameTypeBlock` and
`Encode` are the identity and the scratch buffer disappears.  Returns
`(remainingValues, encoded block)` exactly as the code computes them — in
particular, when the merged values overflow `DefaultMaxPointsPerBlock` the
code overwrites `remainingValues` with the spill instead of prepending. -/
def DecodeAndCombine (newValues : Values) (block : Values)
    (nextTime : Int) (hasFutureBlock : Bool) : Values × Values :=
  let values := block
  if hasFutureBlock then
    let pos := sortSearch newValues.length
      (fun i => decide ((newValues.getD i ⟨0, 0⟩).t ≥ nextTime))
    let merged := Values.Deduplicate (values ++ newValues.take pos)
    let remainingValues := newValues.drop pos
    if merged.length > DefaultMaxPointsPerBlock then
      (merged.drop DefaultMaxPointsPerBlock, merged.take DefaultMaxPointsPerBlock)
    else
      (remainingValues, merged)
  else
    let requireSort := Values.MaxTime values ≥ Values.MinTime newValues
    let merged := values ++ newValues
    let merged := if requireSort then Values.Deduplicate merged else merged
    if merged.length > DefaultMaxPointsPerBlock then
      (merged.drop DefaultMaxPointsPerBlock, merged.take DefaultMaxPointsPerBlock)
    else
      ([], merged)

/-- A sealed data file.  The mmapped block region is modelled by the decoded
blocks in file order (grouped by id, ascending id, ascending time within an
id); `minTime`/`maxTime` are the trailer times; `age` models
`time.Since(modTime)` in nanoseconds and `size` the byte size (dataFile
struct, pd1.go:1353-1359). -/
structure dataFile where
  blocks : List (Nat × Values)
  minTime : Int
  maxTime : Int
  age : Int
  size : Nat
  deriving DecidableEq, Repr

/-- The per-file predicate of `Engine.filesAndLock` (pd1.go:378-385),
kept verbatim including the tautological `fmin >= fmin` conjunct. -/
def fileTouched (min max fmin fmax : Int) : Bool :=
  if min < fmax ∧ fmin ≥ fmin then true
  else if max ≥ fmin ∧ max < fmax then true
  else false

/-- The file-selection loop of `Engine.filesAndLock` (pd1.go:375-385): the
files appended to `a` are exactly those satisfying `fileTouched`. -/
def filesAndLockSelect (min max : Int) (files : List dataFile) : List dataFile :=
  files.filter (fun f => fileTouched min max f.minTime f.maxTime)

/-- A queued range-lock request (`rangeLock` struct in the write-lock file,
lines 73-77); the per-request mutex is concurrency state outside the model. -/
structure rangeLock where
  min : Int
  max : Int
  deriving DecidableEq, Repr

/-- Shallow embedding of `rangeLock.overlaps` (write-lock file lines 79-86):
the receiver `r` is the currently held range and `l` the incoming one. -/
def rangeLock.overlaps (r l : rangeLock) : Bool :=
  if l.min ≥ r.min ∧ l.min ≤ r.max then true
  else if l.max ≥ r.min ∧ l.max ≤ r.max then true
  else false

/-- The set of held ranges a `writeLock.LockRange(r.min, r.max)` call waits on
(write-lock file lines 30-37): exactly the held entries whose `overlaps`
test against the new range succeeds. -/
def lockRangeWaits (held : List rangeLock) (r : rangeLock) : List rangeLock :=
  held.filter (fun rr => rangeLock.overlaps rr r)

/-- Whether a data file is eligible for non-full compaction
(pd1.go:675: `time.Since(df.modTime) > e.CompactionAge && df.size < MaxDataFileSize`). -/
def eligibleForCompaction (compactionAge : Int) (f : dataFile) : Bool :=
  decide (compactionAge < f.age) && decide (f.size < MaxDataFileSize)

/-- The loop of `Engine.filesToCompact` (pd1.go:673-683) with its accumulator:
an eligible file is appended; an ineligible file ends the loop only when the
accumulator is already non-empty, otherwise the loop continues. -/
def filesToCompactGo (compactionAge : Int) : List dataFile → List dataFile → List dataFile
  | [], a => a
  | f :: rest, a =>
    if eligibleForCompaction compactionAge f then
      filesToCompactGo compactionAge rest (a ++ [f])
    else if a = [] then
      filesToCompactGo compactionAge rest a
    else a

/-- Shallow embedding of `Engine.filesToCompact` (pd1.go:669-684). -/
def filesToCompact (compactionAge : Int) (files : List dataFile) : List dataFile :=
  filesToCompactGo compactionAge files []

/-- Result of the per-id body of `Engine.filterDataBetweenTimes`
(pd1.go:819-856): the slice placed in the returned map, and the values kept
in the mutated input map (`none` when the id is deleted from it). -/
structure filterResult where
  filtered : Values
  kept : Option Values
  deriving DecidableEq, Repr

/-- `minIndex` of `filterDataBetweenTimes` (pd1.go:823-831): the index of the
first value with `minTime ≤ t < maxTime`, 0 when none qualifies. -/
def filterMinIndex (values : Values) (minTime maxTime : Int) : Nat :=
  (values.findIdx? (fun w => decide (minTime ≤ w.t ∧ w.t < maxTime))).getD 0

/-- `maxIndex` of `filterDataBetweenTimes` (pd1.go:832-839): one past the last
value with `t < maxTime` scanning backwards, `values.length` when the backward
scan finds none. -/
def filterMaxIndex (values : Values) (maxTime : Int) : Nat :=
  match values.reverse.findIdx? (fun w => decide (w.t < maxTime)) with
  | some k => values.length - k
  | none => values.length

/-- Shallow embedding of the per-id body of `Engine.filterDataBetweenTimes`
(pd1.go:819-856) including the Go slice aliasing of lines 842-853:
`filteredValues[id] = values[minIndex:maxIndex]` shares the backing array with
`values`, and when `maxIndex < len(values)` the later
`append(values[0:minIndex], values[maxIndex:]...)` copies the tail in place
into backing positions `minIndex, minIndex+1, ...` (capacity suffices since
`minIndex + (len-maxIndex) < len ≤ cap`), so the filtered slice afterwards
reads from the overwritten backing array, reconstructed here as `backing`. -/
def filterDataBetweenTimes (values : Values) (minTime maxTime : Int) : filterResult :=
  let minIndex := filterMinIndex values minTime maxTime
  let maxIndex := filterMaxIndex values maxTime
  if minIndex = values.length ∨ (minIndex = 0 ∧ maxIndex = values.length) then
    ⟨(values.drop minIndex).take (maxIndex - minIndex), none⟩
  else
    let k := values.length - maxIndex
    let backing := values.take minIndex ++ values.drop maxIndex ++ values.drop (minIndex + k)
    ⟨(backing.drop minIndex).take (maxIndex - minIndex),
      some (values.take minIndex ++ values.drop maxIndex)⟩

/-- Insert into an ascending list of ids (helper for `sortNat`). -/
def insertNat (n : Nat) : List Nat → List Nat
  | [] => [n]
  | m :: rest => if n ≤ m then n :: m :: rest else m :: insertNat n rest

/-- Ascending sort of the id list, as `sort.Sort(uint64slice(ids))`
(pd1.go:900) produces. -/
def sortNat (l : List Nat) : List Nat :=
  l.foldr insertNat []

/-- First timestamp of a block: the data file exposes a block's first 8 bytes
as its first timestamp without a full decode (`dataFile.block`, pd1.go:1483-1491);
0 past the end of the block region, matching the zero values `block` returns
there. -/
def firstBlockTime (vs : Values) : Int :=
  ((vs.head?).map Value.t).getD 0

/-- The id-in-both-places loop of `Engine.rewriteFile` (pd1.go:967-997): walk
the old file's consecutive blocks for this id, look ahead at the following
block for `nextTime`/`hasFutureBlock`, call `DecodeAndCombine`, emit the
returned block and carry the returned leftover; stop when the next block
belongs to another id or the block region ends (past the end the lookahead
reads zero values, as `dataFile.block` returns them).  Returns the emitted
blocks and the final leftover values. -/
def combineLoop (id : Nat) : Values → List (Nat × Values) → List (Nat × Values) × Values
  | newVals, [] => ([], newVals)
  | newVals, (fid, block) :: rest =>
    if fid = id then
      let next : Nat × Int :=
        match rest with
        | [] => (0, 0)
        | (nid, nb) :: _ => (nid, firstBlockTime nb)
      let hasFutureBlock := next.1 = id
      let r := DecodeAndCombine newVals block next.2 hasFutureBlock
      let m := combineLoop id r.1 rest
      ((id, r.2) :: m.1, m.2)
    else ([], newVals)

/-- Per-id output of `Engine.rewriteFile`'s main loop (pd1.go:919-1013):
raw-copy for an id with no new values (pd1.go:926-950), a single `Encode` of
all new values for an id absent from the old file (pd1.go:952-964, one block
regardless of the value count), and the `DecodeAndCombine` walk plus a single
trailing `Encode` of the leftover for an id in both (pd1.go:967-1012). -/
def idBlocks (oldDF : Option dataFile) (valuesByID : List (Nat × Values)) (id : Nat) :
    List (Nat × Values) :=
  let newVals := (valuesByID.lookup id).getD []
  let oldBlocks := match oldDF with
    | none => []
    | some df => df.blocks
  if newVals = [] then
    (oldBlocks.dropWhile (fun b => b.1 ≠ id)).takeWhile (fun b => b.1 = id)
  else if id ∈ oldBlocks.map Prod.fst then
    let r := combineLoop id newVals (oldBlocks.dropWhile (fun b => b.1 ≠ id))
    r.1 ++ (if r.2 = [] then [] else [(id, r.2)])
  else
    [(id, newVals)]

/-- Observable output of a completed `rewriteFile`: the block region (in file
order), the index id list, and the trailer times. -/
structure rwOutput where
  blocks : List (Nat × Values)
  index : List Nat
  minTime : Int
  maxTime : Int
  deriving DecidableEq, Repr

/-- Shallow embedding of `Engine.rewriteFile` (pd1.go:860-1047).  `none`
models the early return at pd1.go:861-863 (no new data file is produced).
The combined id set, the `minTime`/`maxTime` fold (pd1.go:872-890, bumping
`maxTime` to `v.MaxTime()+1` only when strictly exceeded), the per-id block
output and the index mirror the code; file I/O and the engine's file-set swap
are outside the pure model. -/
def rewriteFile (oldDF : Option dataFile) (valuesByID : List (Nat × Values)) :
    Option rwOutput :=
  if valuesByID = [] then none
  else
    let oldIDs := match oldDF with
      | none => []
      | some df => (df.blocks.map Prod.fst).dedup
    let ids := sortNat (valuesByID.map Prod.fst ++
      oldIDs.filter (fun i => (valuesByID.lookup i) = none))
    let mm0 : Int × Int := match oldDF with
      | some df => (df.minTime, df.maxTime)
      | none => (maxInt64, minInt64)
    let mm := valuesByID.foldl
      (fun (p : Int × Int) kv =>
        let lo := if p.1 > Values.MinTime kv.2 then Values.MinTime kv.2 else p.1
        let hi := if p.2 < Values.MaxTime kv.2 then Values.MaxTime kv.2 + 1 else p.2
        (lo, hi)) mm0
    some ⟨(ids.map (idBlocks oldDF valuesByID)).flatten, ids, mm.1, mm.2⟩

/-- An index entry of a sealed data file: `(id u64, first-block offset u32)`. -/
abbrev IndexEntry := Nat × Nat

/-- One step budgeted binary-search loop of `dataFile.StartingPositionForID`
(pd1.go:1465-1478) over index slots `[min, max)`: read the entry at
`mid = (max-min)/2 + min`, return its position on an id match, else shrink
the window.  `fuel` starts at the full slot count; the window strictly
shrinks each iteration, so fuel 0 implies `min = max` and returning 0
matches the loop exit (pd1.go:1480). -/
def bsearchAux (entries : List IndexEntry) (id : Nat) : Nat → Nat → Nat → Nat
  | 0, _, _ => 0
  | fuel + 1, mn, mx =>
    if mn < mx then
      if (entries.getD ((mx - mn) / 2 + mn) (0, 0)).1 = id then
        (entries.getD ((mx - mn) / 2 + mn) (0, 0)).2
      else if (entries.getD ((mx - mn) / 2 + mn) (0, 0)).1 < id then
        bsearchAux entries id fuel ((mx - mn) / 2 + mn + 1) mx
      else
        bsearchAux entries id fuel mn ((mx - mn) / 2 + mn)
    else 0

/-- Shallow embedding of `dataFile.StartingPositionForID` (pd1.go:1457-1481):
binary search of the index region, modelled as the list of index entries in
slot order; returns 0 when the id is absent. -/
def StartingPositionForID (entries : List IndexEntry) (id : Nat) : Nat :=
  bsearchAux entries id entries.length 0 entries.length

/-- Reference lookup in the index: the position of the entry whose id matches,
0 when absent. -/
def indexLookup (entries : List IndexEntry) (id : Nat) : Nat :=
  match entries.find? (fun e => e.1 == id) with
  | some e => e.2
  | none => 0

/-- The file-picking scan of `cursor.SeekTo` (pd1.go:1529-1535): the first
file whose `[minTime, maxTime]` contains the seek time, with its index. -/
def findFileIdx (seek : Int) : List dataFile → Nat → Option (Nat × dataFile)
  | [], _ => none
  | f :: rest, i =>
    if f.minTime ≤ seek ∧ seek ≤ f.maxTime then some (i, f)
    else findFileIdx seek rest (i + 1)

/-- Shallow embedding of the head of `cursor.SeekTo` on a fresh cursor
(pd1.go:1520-1543): empty file list returns EOF; a seek before the first
file's minTime picks the first file; otherwise the first file containing the
seek time is picked, and when none contains it `c.f` stays nil and EOF is
returned.  The continuation `k` abstracts the rest of SeekTo
(pd1.go:1544-1595), which only runs once a file was picked; `none` is the
`tsdb.EOF` sentinel. -/
def cursorSeekTo (files : List dataFile) (seek : Int)
    (k : Nat → dataFile → Option (Int × Int)) : Option (Int × Int) :=
  match files with
  | [] => none
  | f0 :: _ =>
    match (if seek < f0.minTime then some (0, f0) else findFileIdx seek files 0) with
    | none => none
    | some (i, f) => k i f

/-- Concrete data file for the C1 evaluation: time range [50, 100]. -/
def c1File : dataFile :=
  ⟨[(1, [⟨50, 0⟩, ⟨100, 0⟩])], 50, 100, 0, 0⟩

/-- Concrete data file for the C1 evaluation: time range [0, 10]. -/
def c1FileLow : dataFile :=
  ⟨[(1, [⟨0, 0⟩, ⟨10, 0⟩])], 0, 10, 0, 0⟩

/-- C1: the `filesAndLock` predicate evaluated at the failing inputs.  The
write range [0, 10] is disjoint from the file range [50, 100], yet the file is
selected (the `fmin >= fmin` conjunct is a tautology, so `min < fmax` alone
selects); and the write range [10, 20] intersects the file range [0, 10] at
t = 10, yet the file is not selected.  Both directions of the claimed
"touched iff intersecting" equivalence fail. -/
theorem filesAndLock_touch_bug :
    filesAndLockSelect 0 10 [c1File] = [c1File] ∧
    ¬ ((0 : Int) ≤ c1File.maxTime ∧ c1File.minTime ≤ 10) ∧
    filesAndLockSelect 10 20 [c1FileLow] = [] ∧
    ((10 : Int) ≤ c1FileLow.maxTime ∧ c1FileLow.minTime ≤ 20) := by
  decide

/-- C3: `rangeLock.overlaps` evaluated at the failing input.  The held range
[3, 5] and the incoming range [0, 10] overlap under the claimed inclusive
test (0 ≤ 5 ∧ 3 ≤ 10), and the incoming range even strictly contains the held
one, yet `overlaps` returns false, so `LockRange` does not wait on the held
range. -/
theorem overlaps_misses_containment :
    rangeLock.overlaps ⟨3, 5⟩ ⟨0, 10⟩ = false ∧
    ((0 : Int) ≤ 5 ∧ (3 : Int) ≤ 10) ∧
    lockRangeWaits [⟨3, 5⟩] ⟨0, 10⟩ = [] := by
  decide

/-- Concrete non-null old data file for the C4 counterexample. -/
def c4Old : dataFile :=
  ⟨[(1, [⟨10, 1⟩])], 10, 11, 0, 0⟩

/-- C4 counterexample: with a non-null old data file and an empty
`valuesByID`, `rewriteFile` returns at once (pd1.go:861-863) and produces no
new data file at all, so no byte-identical new block region exists. -/
theorem rewriteFile_empty_no_output :
    rewriteFile (some c4Old) [] = none := by
  decide

/-- C4 (amended): for every old data file (and none), `rewriteFile` with an
empty `valuesByID` is a no-op: it returns immediately without producing any
new data file, leaving the old file in place — idempotence holds trivially,
but no new file with a byte-identical block region is written. -/
theorem rewriteFile_empty_noop (oldDF : Option dataFile) :
    rewriteFile oldDF [] = none :=
  rfl

/-- Concrete per-id value sequence for the C9 evaluation: three values at
times 1, 2, 3 with payloads 1, 2, 3. -/
def c9Vals : Values := [⟨1, 1⟩, ⟨2, 2⟩, ⟨3, 3⟩]

/-- C9: `filterDataBetweenTimes` evaluated at the failing input
(values at times 1, 2, 3; range [2, 3)).  The intended partition is
filtered = [t=2] and kept = [t=1, t=3], but the in-place append into the
shared backing array overwrites the filtered sub-slice: the code yields
filtered = [t=3] and kept = [t=1, t=3], so the value at t=2 is lost and the
value at t=3 is duplicated — the claimed no-loss/no-duplication partition
fails. -/
theorem filterDataBetweenTimes_loses_value :
    (filterDataBetweenTimes c9Vals 2 3).filtered = [⟨3, 3⟩] ∧
    (filterDataBetweenTimes c9Vals 2 3).kept = some [⟨1, 1⟩, ⟨3, 3⟩] ∧
    (⟨2, 2⟩ : Value) ∈ c9Vals ∧
    (⟨2, 2⟩ : Value) ∉ (filterDataBetweenTimes c9Vals 2 3).filtered ∧
    (⟨2, 2⟩ : Value) ∉ ((filterDataBetweenTimes c9Vals 2 3).kept.getD []) := by
  decide

/-- Helper for C7: once the accumulator is non-empty, the `filesToCompact`
loop appends exactly the leading eligible files of the rest and stops at the
first ineligible one. -/
theorem filesToCompactGo_acc_nonempty (ca : Int) :
    ∀ (files a : List dataFile), a ≠ [] →
      filesToCompactGo ca files a = a ++ files.takeWhile (eligibleForCompaction ca) := by
  intro files
  induction files with
  | nil => intro a _; simp [filesToCompactGo]
  | cons f rest ih =>
    intro a ha
    by_cases hf : eligibleForCompaction ca f = true
    · rw [filesToCompactGo, if_pos hf, ih (a ++ [f]) (by simp), List.takeWhile_cons, hf]
      simp
    · rw [filesToCompactGo, if_neg hf, if_neg ha, List.takeWhile_cons]
      simp [hf]

/-- C7 counterexample: with the first file ineligible (age 5 is not older than
CompactionAge 10) and the second eligible, `filesToCompact` skips the leading
ineligible file and returns the second — the claim says the returned
candidate list must be empty when the first file violates a condition. -/
theorem filesToCompact_skips_leading_ineligible :
    eligibleForCompaction 10 (⟨[], 0, 0, 5, 0⟩ : dataFile) = false ∧
    filesToCompact 10 [⟨[], 0, 0, 5, 0⟩, ⟨[], 0, 0, 20, 0⟩] =
      [(⟨[], 0, 0, 20, 0⟩ : dataFile)] := by
  decide

/-- C7 (amended): `filesToCompact` returns the first maximal contiguous run of
eligible files (modTime older than CompactionAge and size below
MaxDataFileSize): it skips any leading ineligible files, collects the
following contiguous eligible files, and stops at the first ineligible file
after that — `takeWhile eligible (dropWhile ineligible files)`. -/
theorem filesToCompact_eq_run (ca : Int) (files : List dataFile) :
    filesToCompact ca files =
      (files.dropWhile (fun f => ! eligibleForCompaction ca f)).takeWhile
        (eligibleForCompaction ca) := by
  induction files with
  | nil => rfl
  | cons f rest ih =>
    by_cases hf : eligibleForCompaction ca f = true
    · rw [filesToCompact, filesToCompactGo, if_pos hf]
      simp only [List.nil_append]
      rw [filesToCompactGo_acc_nonempty ca rest [f] (by simp), List.dropWhile_cons]
      simp [hf, List.takeWhile_cons]
    · rw [filesToCompact, filesToCompactGo, if_neg hf, if_pos rfl, List.dropWhile_cons]
      simp only [hf, Bool.not_false, if_pos]
      exact ih

/-- Concrete old data file for the C6 evaluation: trailer time range [0, 100]. -/
def c6Old : dataFile := ⟨[(1, [⟨50, 0⟩])], 0, 100, 0, 0⟩

/-- C6: the `rewriteFile` trailer fold evaluated at the failing input.  The old
file has maxTime 100 and the newest new value is at t = 100; the code's
`if maxTime < v.MaxTime()` guard is false on equality, so the trailer keeps
maxTime 100 instead of the claimed max(100, 100+1) = 101 — and a stored value
at t = 100 then violates the exclusivity the code's own comment asserts. -/
theorem rewriteFile_maxTime_not_bumped :
    (rewriteFile (some c6Old) [(2, [⟨100, 5⟩])]).map rwOutput.maxTime = some 100 ∧
    Values.MaxTime [⟨100, 5⟩] = c6Old.maxTime ∧
    (100 : Int) ≠ max c6Old.maxTime (Values.MaxTime [⟨100, 5⟩] + 1) := by
  decide

/-- Concrete new-value run for the C5 evaluation: 1001 values at times 0..1000. -/
def c5Vals : Values := (List.range 1001).map (fun (i : Nat) => (⟨(i : Int), 0⟩ : Value))

/-- Helper for C5: with no old file, `rewriteFile` writes an id's new values
as one single block, whatever their number (pd1.go:952-964). -/
theorem rewriteFile_new_id_one_block (vs : Values) (hvs : vs ≠ []) :
    (rewriteFile none [(1, vs)]).map rwOutput.blocks = some [(1, vs)] := by
  simp [rewriteFile, idBlocks, sortNat, insertNat, List.lookup, hvs]

/-- C5: `rewriteFile` evaluated at the failing input.  An id present only in
the new values with 1001 values is written as a single block holding all 1001
values (pd1.go:956: one `newVals.Encode` call, as the code's own TODO notes),
not as the claimed ⌈1001/1000⌉ = 2 blocks of at most 1000 values each. -/
theorem rewriteFile_single_oversized_block :
    (rewriteFile none [(1, c5Vals)]).map rwOutput.blocks = some [(1, c5Vals)] ∧
    DefaultMaxPointsPerBlock < c5Vals.length := by
  have hne : c5Vals ≠ [] := by
    intro h
    have hl := congrArg List.length h
    simp [c5Vals] at hl
  refine ⟨rewriteFile_new_id_one_block c5Vals hne, ?_⟩
  simp only [c5Vals, List.length_map, List.length_range, DefaultMaxPointsPerBlock]
  omega

/-- Helper: inserting a value whose timestamp exceeds every timestamp in the
list appends it at the end. -/
theorem insertReplace_all_lt (w : Value) :
    ∀ l : Values, (∀ a ∈ l, a.t < w.t) → insertReplace l w = l ++ [w] := by
  intro l
  induction l with
  | nil => intro _; rfl
  | cons u rest ih =>
    intro h
    have hu : u.t < w.t := h u (by simp)
    rw [insertReplace, if_neg (by omega), if_neg (by omega),
      ih (fun a ha => h a (by simp [ha]))]
    simp

/-- Helper: folding `insertReplace` over a strictly time-ascending list that
lies entirely above the accumulator appends the list to the accumulator. -/
theorem foldl_insertReplace_sorted :
    ∀ l acc : Values, (∀ a ∈ acc, ∀ b ∈ l, a.t < b.t) →
      l.Pairwise (fun a b => a.t < b.t) →
      l.foldl insertReplace acc = acc ++ l := by
  intro l
  induction l with
  | nil => intro acc _ _; simp
  | cons w rest ih =>
    intro acc hacc hpw
    rw [List.foldl_cons, insertReplace_all_lt w acc (fun a ha => hacc a ha w (by simp))]
    have hstep : ∀ a ∈ acc ++ [w], ∀ b ∈ rest, a.t < b.t := by
      intro a ha b hb
      rcases List.mem_append.mp ha with h1 | h1
      · exact hacc a h1 b (by simp [hb])
      · have : a = w := by simpa using h1
        subst this
        exact (List.pairwise_cons.mp hpw).1 b hb
    rw [ih (acc ++ [w]) hstep (List.Pairwise.of_cons hpw)]
    simp

/-- Deduplicate is the identity on a strictly time-ascending sequence. -/
theorem deduplicate_sorted (l : Values) (h : l.Pairwise (fun a b => a.t < b.t)) :
    Values.Deduplicate l = l := by
  rw [Values.Deduplicate, foldl_insertReplace_sorted l [] (by simp) h]
  simp

/-- Unfolding of `DecodeAndCombine` in the `hasFutureBlock` branch, stated on
symbolic arguments (definitional). -/
theorem DecodeAndCombine_future_eq (newValues block : Values) (nextTime : Int) :
    DecodeAndCombine newValues block nextTime true =
      (fun pos : Nat =>
        (fun merged : Values =>
          if merged.length > DefaultMaxPointsPerBlock then
            (merged.drop DefaultMaxPointsPerBlock, merged.take DefaultMaxPointsPerBlock)
          else (newValues.drop pos, merged))
        (Values.Deduplicate (block ++ newValues.take pos)))
      (sortSearch newValues.length
        (fun i => decide ((newValues.getD i ⟨0, 0⟩).t ≥ nextTime))) := rfl

/-- Concrete old block for the C2 evaluation: 1000 values at times 1..1000. -/
def c2Block : Values := (List.range 1000).map (fun (i : Nat) => (⟨(i : Int) + 1, 0⟩ : Value))

/-- Concrete pending new values for the C2 evaluation. -/
def c2New : Values := [⟨1500, 7⟩, ⟨2500, 8⟩]

set_option maxRecDepth 4000 in
/-- C2: `DecodeAndCombine` evaluated at the failing input.  With
`hasFutureBlock` (next old block at t = 2000), only `newValues[0:1]` merges
with the 1000-value block, overflowing `MaxPointsPerBlock`; the overflow
branch then overwrites the leftover with `values[1000:] = [t=1500]`, so the
pending value at t = 2500 (which the claim says must stay in the leftover) is
in neither the returned leftover nor the returned block — it is dropped. -/
theorem decodeAndCombine_drops_pending_value :
    (DecodeAndCombine c2New c2Block 2000 true).1 = [⟨1500, 7⟩] ∧
    (⟨2500, 8⟩ : Value) ∈ c2New ∧
    (⟨2500, 8⟩ : Value) ∉ (DecodeAndCombine c2New c2Block 2000 true).1 ∧
    (⟨2500, 8⟩ : Value) ∉ (DecodeAndCombine c2New c2Block 2000 true).2 := by
  have hlen : c2Block.length = 1000 := by
    simp [c2Block]
  have hsorted : (c2Block ++ [⟨1500, 7⟩] : Values).Pairwise (fun a b => a.t < b.t) := by
    rw [List.pairwise_append]
    refine ⟨?_, by simp, ?_⟩
    · rw [c2Block, List.pairwise_map]
      refine (List.pairwise_lt_range 1000).imp ?_
      intro a b hab
      show (a : Int) + 1 < (b : Int) + 1
      omega
    · intro a ha b hb
      have hb2 : b = ⟨1500, 7⟩ := by simpa using hb
      subst hb2
      rw [c2Block] at ha
      simp only [List.mem_map, List.mem_range] at ha
      obtain ⟨i, hi, rfl⟩ := ha
      show (i : Int) + 1 < 1500
      omega
  have hpos : sortSearch c2New.length
      (fun i => decide ((c2New.getD i ⟨0, 0⟩).t ≥ 2000)) = 1 := by
    decide
  have h1 := DecodeAndCombine_future_eq c2New c2Block 2000
  rw [hpos] at h1
  simp only [] at h1
  have htake : c2New.take 1 = ([⟨1500, 7⟩] : Values) := rfl
  rw [htake] at h1
  rw [deduplicate_sorted _ hsorted] at h1
  have hgt : (c2Block ++ [⟨1500, 7⟩] : Values).length > DefaultMaxPointsPerBlock := by
    simp [hlen, DefaultMaxPointsPerBlock]
  rw [if_pos hgt] at h1
  have hdd : c2Block.length = DefaultMaxPointsPerBlock := by
    rw [hlen]
    rfl
  rw [List.take_left' hdd, List.drop_left' hdd] at h1
  refine ⟨by rw [h1], by decide, by rw [h1]; decide, ?_⟩
  rw [h1]
  show (⟨2500, 8⟩ : Value) ∉ c2Block
  intro hmem
  simp only [c2Block, List.mem_map, List.mem_range] at hmem
  obtain ⟨i, hi, heq⟩ := hmem
  have hv := congrArg Value.v heq
  simp at hv

/-- Helper: the reference `indexLookup` is 0 when no entry carries the id. -/
theorem indexLookup_eq_zero (entries : List IndexEntry) (id : Nat)
    (h : ∀ e ∈ entries, e.1 ≠ id) : indexLookup entries id = 0 := by
  have hf : entries.find? (fun e => e.1 == id) = none := by
    rw [List.find?_eq_none]
    intro x hx
    simpa using h x hx
  simp [indexLookup, hf]

/-- Helper: on a strictly id-ascending index, `indexLookup` returns the
position of the (unique) entry carrying the id. -/
theorem indexLookup_of_mem (id : Nat) :
    ∀ entries : List IndexEntry, entries.Pairwise (fun a b => a.1 < b.1) →
      ∀ e ∈ entries, e.1 = id → indexLookup entries id = e.2 := by
  intro entries
  induction entries with
  | nil =>
    intro _ e he
    exact absurd he (List.not_mem_nil e)
  | cons u rest ih =>
    intro hpw e he heq
    rcases List.mem_cons.mp he with heu | hmem
    · subst heu
      rw [indexLookup, List.find?_cons_of_pos rest (by simpa using heq)]
    · have hlt : u.1 < e.1 := (List.pairwise_cons.mp hpw).1 e hmem
      have hne2 : u.1 ≠ id := by omega
      rw [indexLookup, List.find?_cons_of_neg rest (by simpa using hne2)]
      exact ih (List.pairwise_cons.mp hpw).2 e hmem heq

/-- Helper: the budgeted binary-search loop agrees with `indexLookup` whenever
the fuel covers the window, the window lies inside the index, and the entries
outside the window are strictly below (left) or above (right) the id. -/
theorem bsearchAux_eq (entries : List IndexEntry) (id : Nat)
    (hsort : entries.Pairwise (fun a b => a.1 < b.1)) :
    ∀ fuel mn mx : Nat, mx - mn ≤ fuel → mx ≤ entries.length →
      (∀ i (hi : i < entries.length), i < mn → (entries.get ⟨i, hi⟩).1 < id) →
      (∀ i (hi : i < entries.length), mx ≤ i → id < (entries.get ⟨i, hi⟩).1) →
      bsearchAux entries id fuel mn mx = indexLookup entries id := by
  have hclosed : ∀ mn mx : Nat, mx ≤ mn →
      (∀ i (hi : i < entries.length), i < mn → (entries.get ⟨i, hi⟩).1 < id) →
      (∀ i (hi : i < entries.length), mx ≤ i → id < (entries.get ⟨i, hi⟩).1) →
      indexLookup entries id = 0 := by
    intro mn mx hmx hlo hhi
    apply indexLookup_eq_zero
    intro e he
    obtain ⟨⟨i, hi⟩, rfl⟩ := List.mem_iff_get.mp he
    rcases Nat.lt_or_ge i mn with h | h
    · have := hlo i hi h
      omega
    · have := hhi i hi (by omega)
      omega
  intro fuel
  induction fuel with
  | zero =>
    intro mn mx hf hlen hlo hhi
    rw [bsearchAux, (hclosed mn mx (by omega) hlo hhi)]
  | succ n ih =>
    intro mn mx hf hlen hlo hhi
    by_cases hwin : mn < mx
    · rw [bsearchAux, if_pos hwin]
      have hmid : (mx - mn) / 2 + mn < entries.length := by omega
      rw [List.getD_eq_get _ _ hmid]
      rcases Nat.lt_trichotomy (entries.get ⟨(mx - mn) / 2 + mn, hmid⟩).1 id
        with hc | hc | hc
      · rw [if_neg (by omega), if_pos hc]
        apply ih ((mx - mn) / 2 + mn + 1) mx (by omega) hlen
        · intro i hi hilt
          rcases Nat.lt_or_ge i ((mx - mn) / 2 + mn) with hi2 | hi2
          · have hrel := (List.pairwise_iff_get.mp hsort) ⟨i, hi⟩
              ⟨(mx - mn) / 2 + mn, hmid⟩ hi2
            omega
          · have hieq : i = (mx - mn) / 2 + mn := by omega
            subst hieq
            exact hc
        · exact hhi
      · rw [if_pos hc]
        exact (indexLookup_of_mem id entries hsort _
          (List.get_mem entries _ hmid) hc).symm
      · rw [if_neg (by omega), if_neg (by omega)]
        apply ih mn ((mx - mn) / 2 + mn) (by omega) (by omega) hlo
        intro i hi hge
        rcases Nat.eq_or_lt_of_le hge with hieq | hlt2
        · have hieq2 : i = (mx - mn) / 2 + mn := by omega
          subst hieq2
          exact hc
        · have hrel := (List.pairwise_iff_get.mp hsort)
            ⟨(mx - mn) / 2 + mn, hmid⟩ ⟨i, hi⟩ hlt2
          omega
    · rw [bsearchAux, if_neg hwin, (hclosed mn mx (by omega) hlo hhi)]

/-- C8: on a sealed data file whose index lists ids in strictly ascending
order, with every recorded first-block offset at least `fileHeaderSize` (the
4-byte magic occupies position 0) and pointing at a block whose id field
matches the entry, `StartingPositionForID id` returns the recorded offset of
the id's entry when the id is present — an offset that is nonzero and whose
block carries the id — and returns 0 when the id is absent. -/
theorem StartingPositionForID_correct
    (entries : List IndexEntry) (blockIdAt : Nat → Option Nat) (id : Nat)
    (hsort : entries.Pairwise (fun a b => a.1 < b.1))
    (hpos : ∀ e ∈ entries, fileHeaderSize ≤ e.2)
    (hwf : ∀ e ∈ entries, blockIdAt e.2 = some e.1) :
    (∀ e ∈ entries, e.1 = id →
      StartingPositionForID entries id = e.2 ∧
      StartingPositionForID entries id ≠ 0 ∧
      blockIdAt (StartingPositionForID entries id) = some id) ∧
    ((∀ e ∈ entries, e.1 ≠ id) → StartingPositionForID entries id = 0) := by
  have hmain : StartingPositionForID entries id = indexLookup entries id := by
    apply bsearchAux_eq entries id hsort entries.length 0 entries.length
      (by omega) (by omega)
    · intro i hi h
      omega
    · intro i hi h
      omega
  constructor
  · intro e he heq
    have h2 : StartingPositionForID entries id = e.2 := by
      rw [hmain]
      exact indexLookup_of_mem id entries hsort e he heq
    refine ⟨h2, ?_, ?_⟩
    · have h4 := hpos e he
      rw [h2]
      simp only [fileHeaderSize] at h4
      omega
    · rw [h2, hwf e he, heq]
  · intro h
    rw [hmain]
    exact indexLookup_eq_zero entries id h

/-- Concrete index for the C8 witness: three entries, strictly ascending ids,
offsets past the 4-byte magic. -/
def c8Entries : List IndexEntry := [(1, 4), (3, 16), (7, 30)]

/-- Concrete block-id layout for the C8 witness, consistent with `c8Entries`. -/
def c8BlockIdAt : Nat → Option Nat :=
  fun p => if p = 4 then some 1 else if p = 16 then some 3
    else if p = 30 then some 7 else none

/-- C8 witness: the theorem applied to the concrete index `c8Entries` and the
present id 3 (its hypotheses hold there by evaluation). -/
theorem StartingPositionForID_correct_witness :
    (c8Entries.Pairwise (fun a b => a.1 < b.1)) ∧
    (∀ e ∈ c8Entries, fileHeaderSize ≤ e.2) ∧
    (∀ e ∈ c8Entries, c8BlockIdAt e.2 = some e.1) ∧
    ((∀ e ∈ c8Entries, e.1 = 3 →
      StartingPositionForID c8Entries 3 = e.2 ∧
      StartingPositionForID c8Entries 3 ≠ 0 ∧
      c8BlockIdAt (StartingPositionForID c8Entries 3) = some 3) ∧
    ((∀ e ∈ c8Entries, e.1 ≠ 3) → StartingPositionForID c8Entries 3 = 0)) :=
  ⟨by decide, by decide, by decide,
    StartingPositionForID_correct c8Entries c8BlockIdAt 3
      (by decide) (by decide) (by decide)⟩

/-- Helper for C10: the file-picking scan returns `none` when no file's
time range contains the seek time. -/
theorem findFileIdx_none (seek : Int) :
    ∀ (l : List dataFile) (i : Nat),
      (∀ f ∈ l, ¬ (f.minTime ≤ seek ∧ seek ≤ f.maxTime)) →
      findFileIdx seek l i = none := by
  intro l
  induction l with
  | nil =>
    intro _ _
    rfl
  | cons f rest ih =>
    intro i h
    rw [findFileIdx, if_neg (h f (by simp))]
    exact ih (i + 1) (fun g hg => h g (by simp [hg]))

/-- C10: on a fresh cursor over a non-empty file list, when the seek time is
at or after the first file's minTime but no file's `[minTime, maxTime]` range
contains it (it falls in a gap between files or after the last file),
`SeekTo` returns the EOF sentinel — for every continuation, i.e. regardless
of which values any later file holds for the cursor's id. -/
theorem seekTo_gap_eof (f0 : dataFile) (rest : List dataFile) (seek : Int)
    (k : Nat → dataFile → Option (Int × Int))
    (hge : f0.minTime ≤ seek)
    (hgap : ∀ f ∈ f0 :: rest, ¬ (f.minTime ≤ seek ∧ seek ≤ f.maxTime)) :
    cursorSeekTo (f0 :: rest) seek k = none := by
  simp only [cursorSeekTo]
  rw [if_neg (by omega), findFileIdx_none seek (f0 :: rest) 0 hgap]

/-- Concrete files for the C10 witness: time ranges [0, 10] and [20, 30]. -/
def c10FileA : dataFile := ⟨[(1, [⟨0, 0⟩])], 0, 10, 0, 0⟩

/-- Concrete second file for the C10 witness; it holds values for id 1 at
times 20 and 25, both at or after the seek time 15. -/
def c10FileB : dataFile := ⟨[(1, [⟨20, 0⟩, ⟨25, 0⟩])], 20, 30, 0, 0⟩

/-- C10 witness: the theorem applied at seek time 15, which falls in the gap
between [0, 10] and [20, 30]; the continuation used would return a value
from the selected file, yet SeekTo returns the EOF sentinel. -/
theorem seekTo_gap_eof_witness :
    c10FileA.minTime ≤ 15 ∧
    (∀ f ∈ [c10FileA, c10FileB], ¬ (f.minTime ≤ 15 ∧ (15 : Int) ≤ f.maxTime)) ∧
    cursorSeekTo [c10FileA, c10FileB] 15 (fun _ f => some (f.minTime, 0)) = none :=
  ⟨by decide, by decide,
    seekTo_gap_eof c10FileA [c10FileB] 15 (fun _ f => some (f.minTime, 0))
      (by decide) (by decide)⟩
